import Mathlib

/-!
Shallow embedding of the voxpipe core: the segment merge/consolidation
algorithm (src/voxpipe/core/merger.py), the hallucination filter and text
cleaning heuristics (src/voxpipe/utils/cleaning.py), the subtitle formatter
(src/voxpipe/core/subtitles.py), and the timestamp codec (the module
voxpipe/utils/timestamps.py is absent from the repository snapshot, so it is
modelled from the spec).  Python floats are modelled as exact rationals;
Python strings as Lean strings.
-/

namespace Voxpipe

/-! ### Python string primitives

Python whitespace (ASCII range) for str.strip / str.split / regex \s. -/

def pyIsSpace (c : Char) : Bool :=
  c == ' ' || c == '\t' || c == '\n' || c == '\r' || c == '\x0b' || c == '\x0c'

/-- Python str.strip(): remove leading and trailing whitespace. -/
def pyStrip (s : String) : String :=
  ⟨((s.data.dropWhile pyIsSpace).reverse.dropWhile pyIsSpace).reverse⟩

/-- Helper for pySplit: cs is the remaining input, acc the current word
reversed. -/
def pySplitAux : List Char → List Char → List String
  | [], [] => []
  | [], acc => [⟨acc.reverse⟩]
  | c :: rest, acc =>
    if pyIsSpace c then
      match acc with
      | [] => pySplitAux rest []
      | _ => ⟨acc.reverse⟩ :: pySplitAux rest []
    else pySplitAux rest (c :: acc)

/-- Python str.split() with no argument: split on whitespace runs, no empty
words. -/
def pySplit (s : String) : List String := pySplitAux s.data []

/-- Python str.lower() (ASCII case fold suffices for the modelled alphabet). -/
def pyLower (s : String) : String := ⟨s.data.map Char.toLower⟩

/-- Python sep.join(parts). -/
def pyJoin (sep : String) : List String → String
  | [] => ""
  | [x] => x
  | x :: y :: rest => x ++ sep ++ pyJoin sep (y :: rest)

/-! ### Python round

Python round() rounds half to even.  round(x, 3) at millisecond
resolution. -/

def roundHalfEven (x : ℚ) : ℤ :=
  let f := ⌊x⌋
  let r := x - f
  if r < 1/2 then f
  else if 1/2 < r then f + 1
  else if f % 2 = 0 then f else f + 1

/-- Python round(x, 3). -/
def pyRound3 (x : ℚ) : ℚ := (roundHalfEven (x * 1000) : ℚ) / 1000

/-! ### merger.py -/

/-- calculate_overlap: overlap duration between two time ranges. -/
def calculate_overlap (seg_start seg_end diar_start diar_end : ℚ) : ℚ :=
  let overlap_start := max seg_start diar_start
  let overlap_end := min seg_end diar_end
  max 0 (overlap_end - overlap_start)

/-- One diarization segment: {"start": float, "end": float, "speaker": str}.
The JSON field "end" is named stop because end is a Lean keyword. -/
structure DiarSeg where
  start : ℚ
  stop : ℚ
  speaker : String
deriving DecidableEq

/-- speaker_overlaps[speaker] = speaker_overlaps.get(speaker, 0) + overlap
on a Python dict modelled as an insertion-ordered association list: an
existing key keeps its position, a new key is appended at the end. -/
def insertAdd : List (String × ℚ) → String → ℚ → List (String × ℚ)
  | [], k, v => [(k, v)]
  | (k', v') :: rest, k, v =>
    if k' = k then (k', v' + v) :: rest else (k', v') :: insertAdd rest k v

/-- The speaker_overlaps dict built by the loop in find_dominant_speaker:
only candidates with positive overlap contribute. -/
def accumOverlaps (seg_start seg_end : ℚ) (diarization_segments : List DiarSeg) :
    List (String × ℚ) :=
  diarization_segments.foldl
    (fun m diar =>
      let overlap := calculate_overlap seg_start seg_end diar.start diar.stop
      if 0 < overlap then insertAdd m diar.speaker overlap else m)
    []

/-- Python max(dict, key=lambda k: dict[k]): first key attaining the maximal
value in insertion-iteration order (later equal values do not replace). -/
def pyMaxKey : List (String × ℚ) → Option String
  | [] => none
  | p :: rest =>
    some ((rest.foldl (fun best q => if best.2 < q.2 then q else best) p).1)

/-- find_dominant_speaker: speaker with most accumulated overlap, or
"UNKNOWN" when no candidate overlaps positively. -/
def find_dominant_speaker (seg_start seg_end : ℚ)
    (diarization_segments : List DiarSeg) : String :=
  match pyMaxKey (accumOverlaps seg_start seg_end diarization_segments) with
  | none => "UNKNOWN"
  | some k => k

/-- One merged segment produced by merge_transcript. -/
structure MergedSeg where
  start : ℚ
  stop : ℚ
  speaker : String
  text : String
deriving DecidableEq

/-- One iteration of the consolidation loop in merge_transcript: if the
accumulated list is nonempty and its last speaker equals the new segment's
speaker, extend the last segment's end and append the text after a space;
otherwise append a copy of the new segment. -/
def consolidateStep (consolidated : List MergedSeg) (seg : MergedSeg) :
    List MergedSeg :=
  match consolidated.getLast? with
  | some l =>
    if l.speaker = seg.speaker then
      consolidated.dropLast ++
        [{ l with stop := seg.stop, text := l.text ++ " " ++ seg.text }]
    else consolidated ++ [seg]
  | none => consolidated ++ [seg]

/-- The consolidation pass of merge_transcript. -/
def consolidate (merged_segments : List MergedSeg) : List MergedSeg :=
  merged_segments.foldl consolidateStep []

/-- Open-block reformulation of the consolidation loop, used in proofs:
cur is the output segment currently being accumulated. -/
def consolidateAux (cur : MergedSeg) : List MergedSeg → List MergedSeg
  | [] => [cur]
  | seg :: rest =>
    if cur.speaker = seg.speaker then
      consolidateAux { cur with stop := seg.stop, text := cur.text ++ " " ++ seg.text } rest
    else cur :: consolidateAux seg rest

theorem consolidateStep_concat (pre : List MergedSeg) (l seg : MergedSeg) :
    consolidateStep (pre ++ [l]) seg =
      if l.speaker = seg.speaker then
        pre ++ [{ l with stop := seg.stop, text := l.text ++ " " ++ seg.text }]
      else pre ++ [l, seg] := by
  unfold consolidateStep
  rw [List.getLast?_concat]
  dsimp only
  rw [List.dropLast_concat]
  by_cases h : l.speaker = seg.speaker
  · rw [if_pos h, if_pos h]
  · rw [if_neg h, if_neg h]; simp

theorem foldl_consolidateStep_concat (rest : List MergedSeg) :
    ∀ (pre : List MergedSeg) (cur : MergedSeg),
      rest.foldl consolidateStep (pre ++ [cur]) = pre ++ consolidateAux cur rest := by
  induction rest with
  | nil => intro pre cur; simp [consolidateAux]
  | cons seg rs ih =>
    intro pre cur
    rw [List.foldl_cons, consolidateStep_concat]
    show _ = pre ++ consolidateAux cur (seg :: rs)
    unfold consolidateAux
    by_cases h : cur.speaker = seg.speaker
    · rw [if_pos h, if_pos h, ih]
    · rw [if_neg h, if_neg h]
      have h2 := ih (pre ++ [cur]) seg
      rw [List.append_assoc] at h2
      simpa using h2

theorem consolidate_eq_aux (segs : List MergedSeg) :
    consolidate segs = match segs with
      | [] => []
      | s :: rest => consolidateAux s rest := by
  cases segs with
  | nil => rfl
  | cons s rest =>
    show rest.foldl consolidateStep (consolidateStep [] s) = consolidateAux s rest
    have h0 : consolidateStep [] s = [] ++ [s] := by simp [consolidateStep]
    rw [h0, foldl_consolidateStep_concat rest [] s]
    simp

/-! ### Transcript and diarization documents, merge_transcript -/

/-- One entry of transcript shape A (whisper.cpp): nested millisecond
offsets.  offsets_from models seg.get("offsets", \x7b\x7d).get("from", 0);
a missing "offsets" object behaves as both fields missing. -/
structure NestedSeg where
  offsets_from : Option ℤ
  offsets_to : Option ℤ
  text : Option String
deriving DecidableEq

/-- One entry of transcript shape B (standard whisper): flat seconds. -/
structure FlatSeg where
  start : Option ℚ
  stop : Option ℚ
  text : Option String
deriving DecidableEq

/-- The transcript JSON document: merge_transcript probes the
"transcription" key first, then "segments"; a field is some when the key is
present. -/
structure TranscriptDoc where
  transcription : Option (List NestedSeg)
  segments : Option (List FlatSeg)

/-- The diarization JSON document. -/
structure DiarDoc where
  segments : Option (List DiarSeg)
  speakers : Option (List String)

/-- The merged result document (provenance path strings are I/O-level and
omitted). -/
structure MergeResult where
  speakers : List String
  segments : List MergedSeg
deriving DecidableEq

/-- The shape-A loop body of merge_transcript: skip empty-trimmed text,
divide millisecond offsets by 1000, assign a speaker, round times. -/
def mergedOfNested (diar_segments : List DiarSeg) (segs : List NestedSeg) :
    List MergedSeg :=
  segs.filterMap fun seg =>
    let start : ℚ := (seg.offsets_from.getD 0 : ℚ) / 1000
    let stop : ℚ := (seg.offsets_to.getD 0 : ℚ) / 1000
    let text := pyStrip (seg.text.getD "")
    if text = "" then none
    else some { start := pyRound3 start, stop := pyRound3 stop,
                speaker := find_dominant_speaker start stop diar_segments,
                text := text }

/-- The shape-B loop body of merge_transcript. -/
def mergedOfFlat (diar_segments : List DiarSeg) (segs : List FlatSeg) :
    List MergedSeg :=
  segs.filterMap fun seg =>
    let start := seg.start.getD 0
    let stop := seg.stop.getD 0
    let text := pyStrip (seg.text.getD "")
    if text = "" then none
    else some { start := pyRound3 start, stop := pyRound3 stop,
                speaker := find_dominant_speaker start stop diar_segments,
                text := text }

/-- The merged_segments list built by the if/elif chain of merge_transcript:
shape A when "transcription" is present, else shape B when "segments" is
present, else no iteration at all (empty list). -/
def mergedSegsOf (diar_segments : List DiarSeg) (transcript_data : TranscriptDoc) :
    List MergedSeg :=
  match transcript_data.transcription with
  | some segs => mergedOfNested diar_segments segs
  | none =>
    match transcript_data.segments with
    | some segs => mergedOfFlat diar_segments segs
    | none => []

/-- merge_transcript (the pure transformation; file I/O omitted).  The
unguarded subscript diarization_data["segments"] raises when the key is
missing: modelled as none. -/
def merge_transcript (transcript_data : TranscriptDoc)
    (diarization_data : DiarDoc) : Option MergeResult :=
  match diarization_data.segments with
  | none => none
  | some diar_segments =>
    some { speakers := diarization_data.speakers.getD [],
           segments := consolidate (mergedSegsOf diar_segments transcript_data) }

/-! ### cleaning.py -/

/-- A transcript segment as consumed by the cleaning utilities and the
subtitle formatter: a JSON object whose fields may be absent. -/
structure Seg where
  start : Option ℚ
  stop : Option ℚ
  speaker : Option String
  text : Option String
deriving DecidableEq

/-- Distinct elements of a list in first-occurrence order (models the
cardinalities of Python set operations). -/
def firstOccs : List String → List String
  | [] => []
  | a :: l => a :: (firstOccs l).filter (fun x => x ≠ a)

/-- _text_similarity: Jaccard similarity of case-folded whitespace-tokenized
word sets, 0 when either side has no tokens. -/
def _text_similarity (text1 text2 : String) : ℚ :=
  if text1 = "" ∨ text2 = "" then 0
  else
    let t1 := pySplit (pyLower text1)
    let t2 := pySplit (pyLower text2)
    if t1 = [] ∨ t2 = [] then 0
    else
      let set1 := firstOccs t1
      let set2 := firstOccs t2
      let intersection := (set1.filter (fun x => decide (x ∈ set2))).length
      let union := (firstOccs (t1 ++ t2)).length
      if 0 < union then (intersection : ℚ) / union else 0

/-- The loop of remove_repeated_segments: state is the consecutive-similar
counter and the text of the last emitted segment. -/
def removeRepeatedAux (similarity_threshold : ℚ) (max_consecutive_similar : ℕ) :
    List Seg → ℕ → String → List Seg
  | [], _, _ => []
  | seg :: rest, consecutive_similar, last_text =>
    let text := pyStrip (seg.text.getD "")
    if text = "" then
      removeRepeatedAux similarity_threshold max_consecutive_similar rest
        consecutive_similar last_text
    else if similarity_threshold ≤ _text_similarity text last_text then
      if max_consecutive_similar ≤ consecutive_similar + 1 then
        removeRepeatedAux similarity_threshold max_consecutive_similar rest
          (consecutive_similar + 1) last_text
      else
        seg :: removeRepeatedAux similarity_threshold max_consecutive_similar rest
          (consecutive_similar + 1) text
    else
      seg :: removeRepeatedAux similarity_threshold max_consecutive_similar rest
        0 text

/-- remove_repeated_segments (defaults: threshold 9/10, limit 3). -/
def remove_repeated_segments (segments : List Seg)
    (similarity_threshold : ℚ) (max_consecutive_similar : ℕ) : List Seg :=
  removeRepeatedAux similarity_threshold max_consecutive_similar segments 0 ""

/-! ### Helper lemmas for concrete evaluation -/

theorem mk_eq_empty_iff (cs : List Char) : ((⟨cs⟩ : String) = "") ↔ cs = [] := by
  constructor
  · intro h; exact congrArg String.data h
  · intro h; subst h; rfl

/-! ### C1: consolidation pass -/

/-- C1: in the consolidation pass, a segment whose assigned speaker equals
the speaker of the immediately preceding accumulated output segment is
merged into it (the output segment's end becomes the new segment's end and
the new text is appended after a single space); otherwise a new output
segment is started.  Consolidating [(0,2,A,hi),(2,4,A,there),(4,6,B,hey)]
yields exactly [(0,4,A,hi there),(4,6,B,hey)]. -/
theorem C1_consolidation_merge_rule :
    (∀ (xs : List MergedSeg) (s : MergedSeg) (pre : List MergedSeg) (l : MergedSeg),
        consolidate xs = pre ++ [l] →
          consolidate (xs ++ [s]) =
            if l.speaker = s.speaker then
              pre ++ [{ start := l.start, stop := s.stop, speaker := l.speaker,
                        text := l.text ++ " " ++ s.text }]
            else pre ++ [l, s]) ∧
      consolidate [⟨0, 2, "A", "hi"⟩, ⟨2, 4, "A", "there"⟩, ⟨4, 6, "B", "hey"⟩] =
        [⟨0, 4, "A", "hi there"⟩, ⟨4, 6, "B", "hey"⟩] := by
  constructor
  · intro xs s pre l h
    unfold consolidate at h ⊢
    rw [List.foldl_append, h, List.foldl_cons, List.foldl_nil, consolidateStep_concat]
  · decide

theorem C1_consolidation_merge_rule_witness :
    consolidate ([⟨0, 2, "A", "hi"⟩] ++ [⟨2, 4, "A", "there"⟩]) =
      if ("A" : String) = "A" then
        ([] : List MergedSeg) ++ [⟨0, 4, "A", "hi there"⟩]
      else [] ++ [⟨0, 2, "A", "hi"⟩, ⟨2, 4, "A", "there"⟩] :=
  C1_consolidation_merge_rule.1 [⟨0, 2, "A", "hi"⟩] ⟨2, 4, "A", "there"⟩ []
    ⟨0, 2, "A", "hi"⟩ (by decide)

/-! ### C2: hallucination filter retained count -/

/-- The crafted 5-repeat input of the claim: five segments with identical
non-empty text. -/
def C2seg : Seg := ⟨some 0, some 1, some "SPEAKER_00", some "hello world"⟩

def C2input : List Seg := [C2seg, C2seg, C2seg, C2seg, C2seg]

/-- C2 counterexample: with default threshold 9/10 and default limit 3, the
filter does not retain exactly the first 2 occurrences. -/
theorem C2_counterexample_retained_not_two :
    remove_repeated_segments C2input (9/10) 3 ≠ [C2seg, C2seg] := by
  have h : remove_repeated_segments C2input (9/10) 3 = [C2seg, C2seg, C2seg] := by
    norm_num +decide [remove_repeated_segments, removeRepeatedAux, _text_similarity, pyStrip,
      pySplit, pySplitAux, pyLower, firstOccs, C2input, C2seg, pyIsSpace, List.dropWhile,
      mk_eq_empty_iff]
  rw [h]
  decide

/-- C2 amended: for the 5-repeat input with default threshold 9/10 and
default limit 3, exactly the first max_consecutive_similar occurrences
(3 segments) are retained; the rest are dropped.  (The first segment is not
similar to the empty initial last-emitted text, so the counter only reaches
the limit at the fourth segment.) -/
theorem C2_retained_first_three :
    remove_repeated_segments C2input (9/10) 3 = [C2seg, C2seg, C2seg] := by
  norm_num +decide [remove_repeated_segments, removeRepeatedAux, _text_similarity, pyStrip,
    pySplit, pySplitAux, pyLower, firstOccs, C2input, C2seg, pyIsSpace, List.dropWhile,
    mk_eq_empty_iff]

/-! ### C10: the filter returns an order-preserving subsequence -/

theorem removeRepeatedAux_sublist (th : ℚ) (k : ℕ) :
    ∀ (segs : List Seg) (cnt : ℕ) (last : String),
      (removeRepeatedAux th k segs cnt last).Sublist segs := by
  intro segs
  induction segs with
  | nil => intro cnt last; exact List.Sublist.refl []
  | cons seg rest ih =>
    intro cnt last
    unfold removeRepeatedAux
    dsimp only
    split
    · exact (ih cnt last).cons seg
    · split
      · split
        · exact (ih (cnt + 1) last).cons seg
        · exact (ih (cnt + 1) (pyStrip (seg.text.getD ""))).cons₂ seg
      · exact (ih 0 (pyStrip (seg.text.getD ""))).cons₂ seg

/-- C10: for every input list and parameters, remove_repeated_segments
returns a sublist of its input: each output segment is an input segment
with all four fields unchanged, and relative order is preserved. -/
theorem C10_remove_repeated_segments_sublist (segments : List Seg)
    (similarity_threshold : ℚ) (max_consecutive_similar : ℕ) :
    (remove_repeated_segments segments similarity_threshold
        max_consecutive_similar).Sublist segments :=
  removeRepeatedAux_sublist similarity_threshold max_consecutive_similar segments 0 ""

/-! ### C4 / C5: the overlap accumulator -/

/-- Total overlap with the target accumulated over all candidates bearing a
given label. -/
def labelOverlapSum (seg_start seg_end : ℚ) (ds : List DiarSeg) (label : String) : ℚ :=
  ((ds.filter (fun d => d.speaker == label)).map
    (fun d => calculate_overlap seg_start seg_end d.start d.stop)).sum

/-- Value stored for a label in the overlaps dict (0 when absent). -/
def lookupVal (label : String) (m : List (String × ℚ)) : ℚ :=
  ((m.find? (fun p => p.1 == label)).map Prod.snd).getD 0

def keysOf (m : List (String × ℚ)) : List String := m.map Prod.fst

/-- Speakers of the candidates with positive overlap, in candidate
iteration order (with repetitions). -/
def posSpeakers (seg_start seg_end : ℚ) (ds : List DiarSeg) : List String :=
  (ds.filter (fun d => decide (0 < calculate_overlap seg_start seg_end d.start d.stop))).map
    DiarSeg.speaker

theorem calculate_overlap_nonneg (a b c d : ℚ) : 0 ≤ calculate_overlap a b c d :=
  le_max_left 0 _

theorem lookupVal_insertAdd (m : List (String × ℚ)) (k label : String) (v : ℚ) :
    lookupVal label (insertAdd m k v) =
      lookupVal label m + if k = label then v else 0 := by
  induction m with
  | nil =>
    by_cases h : k = label
    · simp [insertAdd, lookupVal, List.find?, h, if_pos h]
    · have hb : (k == label) = false := by simpa using h
      simp [insertAdd, lookupVal, List.find?, hb, if_neg h]
  | cons p rest ih =>
    obtain ⟨k', v'⟩ := p
    by_cases hk : k' = k
    · subst hk
      by_cases h : k' = label
      · simp [insertAdd, lookupVal, List.find?, h, if_pos h, add_comm]
      · have hb : (k' == label) = false := by simpa using h
        simp [insertAdd, lookupVal, List.find?, hb, if_neg h]
    · by_cases h : k' = label
      · subst h
        have hkb : k ≠ k' := fun hh => hk hh.symm
        simp [insertAdd, lookupVal, List.find?, if_neg hk, if_neg hkb]
      · have hb : (k' == label) = false := by simpa using h
        simp only [insertAdd, if_neg hk, lookupVal, List.find?, hb] at ih ⊢
        exact ih

theorem keysOf_insertAdd (m : List (String × ℚ)) (k : String) (v : ℚ) :
    keysOf (insertAdd m k v) =
      if k ∈ keysOf m then keysOf m else keysOf m ++ [k] := by
  induction m with
  | nil => simp [insertAdd, keysOf]
  | cons p rest ih =>
    obtain ⟨k', v'⟩ := p
    by_cases hk : k' = k
    · subst hk
      simp [insertAdd, keysOf]
    · have hk2 : ¬k = k' := fun hh => hk hh.symm
      simp only [insertAdd, if_neg hk, keysOf, List.map_cons, List.mem_cons]
      simp only [keysOf] at ih
      rw [ih]
      by_cases hmem : k ∈ rest.map Prod.fst
      · simp [hmem, hk2]
      · simp [hmem, hk2]

theorem labelOverlapSum_cons (s e : ℚ) (d : DiarSeg) (ds : List DiarSeg) (label : String) :
    labelOverlapSum s e (d :: ds) label =
      (if d.speaker = label then calculate_overlap s e d.start d.stop else 0) +
        labelOverlapSum s e ds label := by
  by_cases h : d.speaker = label
  · have hb : (d.speaker == label) = true := by simpa using h
    simp [labelOverlapSum, List.filter_cons, hb, if_pos h]
  · have hb : (d.speaker == label) = false := by simpa using h
    simp [labelOverlapSum, List.filter_cons, hb, if_neg h]

/-- The overlaps dict holds, for every label, the summed overlap of all
candidates bearing that label (generalized over the loop accumulator). -/
theorem lookupVal_foldl (s e : ℚ) :
    ∀ (ds : List DiarSeg) (m₀ : List (String × ℚ)) (label : String),
      lookupVal label
          (ds.foldl (fun m diar =>
            let overlap := calculate_overlap s e diar.start diar.stop
            if 0 < overlap then insertAdd m diar.speaker overlap else m) m₀) =
        lookupVal label m₀ + labelOverlapSum s e ds label := by
  intro ds
  induction ds with
  | nil => intro m₀ label; simp [labelOverlapSum, lookupVal]
  | cons d rest ih =>
    intro m₀ label
    rw [List.foldl_cons, labelOverlapSum_cons]
    dsimp only
    by_cases hpos : 0 < calculate_overlap s e d.start d.stop
    · rw [if_pos hpos, ih, lookupVal_insertAdd]
      by_cases h : d.speaker = label
      · rw [if_pos h]; ring
      · rw [if_neg h]; ring
    · rw [if_neg hpos, ih]
      have h0 : calculate_overlap s e d.start d.stop = 0 :=
        le_antisymm (not_lt.mp hpos) (calculate_overlap_nonneg s e d.start d.stop)
      rw [h0]
      by_cases h : d.speaker = label
      · rw [if_pos h]; ring
      · rw [if_neg h]; ring

theorem filter_ne_absorb (P K : List String) (k : String) (hk : k ∈ K) :
    (P.filter (fun x => x ≠ k)).filter (fun x => decide (x ∉ K)) =
      P.filter (fun x => decide (x ∉ K)) := by
  rw [List.filter_filter]
  apply List.filter_congr
  intro x _
  by_cases hx : x = k
  · subst hx; simp [hk]
  · simp [hx]

theorem filter_not_mem_append_singleton (P K : List String) (k : String) :
    P.filter (fun x => decide (x ∉ K ++ [k])) =
      (P.filter (fun x => x ≠ k)).filter (fun x => decide (x ∉ K)) := by
  rw [List.filter_filter]
  apply List.filter_congr
  intro x _
  by_cases hx : x = k
  · subst hx; simp
  · by_cases hx2 : x ∈ K <;> simp [hx, hx2]

theorem keysOf_foldl (s e : ℚ) :
    ∀ (ds : List DiarSeg) (m₀ : List (String × ℚ)),
      keysOf
          (ds.foldl (fun m diar =>
            let overlap := calculate_overlap s e diar.start diar.stop
            if 0 < overlap then insertAdd m diar.speaker overlap else m) m₀) =
        keysOf m₀ ++
          (firstOccs (posSpeakers s e ds)).filter (fun x => decide (x ∉ keysOf m₀)) := by
  intro ds
  induction ds with
  | nil => intro m₀; simp [posSpeakers, firstOccs]
  | cons d rest ih =>
    intro m₀
    rw [List.foldl_cons]
    dsimp only
    by_cases hpos : 0 < calculate_overlap s e d.start d.stop
    · rw [if_pos hpos, ih, keysOf_insertAdd]
      have hps : posSpeakers s e (d :: rest) = d.speaker :: posSpeakers s e rest := by
        simp [posSpeakers, List.filter_cons, hpos]
      rw [hps]
      show _ = keysOf m₀ ++
        (d.speaker :: (firstOccs (posSpeakers s e rest)).filter
          (fun x => x ≠ d.speaker)).filter (fun x => decide (x ∉ keysOf m₀))
      by_cases hmem : d.speaker ∈ keysOf m₀
      · rw [if_pos hmem]
        have hd : (decide (d.speaker ∉ keysOf m₀)) = false := by simpa using hmem
        rw [List.filter_cons, hd]
        rw [filter_ne_absorb _ _ _ hmem]
        simp
      · rw [if_neg hmem]
        have hd : (decide (d.speaker ∉ keysOf m₀)) = true := by simpa using hmem
        rw [List.filter_cons, hd]
        rw [filter_not_mem_append_singleton, List.append_assoc, List.singleton_append]
        simp
    · rw [if_neg hpos, ih]
      have hps : posSpeakers s e (d :: rest) = posSpeakers s e rest := by
        simp [posSpeakers, List.filter_cons, hpos]
      rw [hps]

/-- The scan performed by Python max(dict, key=...): keeps the first entry,
replacing only on strictly greater value. -/
def scanMax (p : String × ℚ) (rest : List (String × ℚ)) : String × ℚ :=
  rest.foldl (fun best q => if best.2 < q.2 then q else best) p

theorem scanMax_mem_le :
    ∀ (rest : List (String × ℚ)) (p : String × ℚ),
      scanMax p rest ∈ p :: rest ∧ ∀ q ∈ p :: rest, q.2 ≤ (scanMax p rest).2 := by
  intro rest
  induction rest with
  | nil =>
    intro p
    refine ⟨by simp [scanMax], ?_⟩
    intro q hq
    rw [List.mem_singleton] at hq
    subst hq
    exact le_refl _
  | cons q t ih =>
    intro p
    have hstep : scanMax p (q :: t) = scanMax (if p.2 < q.2 then q else p) t := rfl
    have hp' : (if p.2 < q.2 then q else p).2 = max p.2 q.2 := by
      by_cases h : p.2 < q.2
      · rw [if_pos h, max_eq_right h.le]
      · rw [if_neg h, max_eq_left (not_lt.mp h)]
    obtain ⟨ihmem, ihle⟩ := ih (if p.2 < q.2 then q else p)
    constructor
    · rw [hstep]
      rcases List.mem_cons.mp ihmem with h | h
      · rw [h]
        by_cases hc : p.2 < q.2
        · rw [if_pos hc]; exact List.mem_cons_of_mem _ (List.mem_cons_self _ _)
        · rw [if_neg hc]; exact List.mem_cons_self _ _
      · exact List.mem_cons_of_mem _ (List.mem_cons_of_mem _ h)
    · intro r hr
      rw [hstep]
      have hhead : (if p.2 < q.2 then q else p).2 ≤ (scanMax (if p.2 < q.2 then q else p) t).2 :=
        ihle _ (List.mem_cons_self _ _)
      rcases List.mem_cons.mp hr with h | h
      · subst h
        exact le_trans (le_trans (le_max_left _ _) (le_of_eq hp'.symm)) hhead
      · rcases List.mem_cons.mp h with h2 | h2
        · subst h2
          exact le_trans (le_trans (le_max_right _ _) (le_of_eq hp'.symm)) hhead
        · exact ihle _ (List.mem_cons_of_mem _ h2)

theorem scanMax_find? :
    ∀ (rest : List (String × ℚ)) (p : String × ℚ),
      (p :: rest).find? (fun q => decide ((scanMax p rest).2 ≤ q.2)) =
        some (scanMax p rest) := by
  intro rest
  induction rest with
  | nil =>
    intro p
    simp [scanMax, List.find?]
  | cons q t ih =>
    intro p
    have hstep : scanMax p (q :: t) = scanMax (if p.2 < q.2 then q else p) t := rfl
    by_cases hpq : p.2 < q.2
    · rw [hstep, if_pos hpq]
      have hqle : q.2 ≤ (scanMax q t).2 := (scanMax_mem_le t q).2 _ (List.mem_cons_self _ _)
      have hplt : ¬ ((scanMax q t).2 ≤ p.2) := not_le.mpr (lt_of_lt_of_le hpq hqle)
      rw [List.find?_cons]
      have hfalse : (decide ((scanMax q t).2 ≤ p.2)) = false := by simpa using hplt
      rw [hfalse]
      exact ih q
    · rw [hstep, if_neg hpq]
      have ihp := ih p
      rw [List.find?_cons] at ihp
      by_cases hp : (scanMax p t).2 ≤ p.2
      · have htrue : (decide ((scanMax p t).2 ≤ p.2)) = true := by simpa using hp
        rw [htrue] at ihp
        have hep : p = scanMax p t := Option.some.inj ihp
        rw [List.find?_cons, htrue]
        rw [← hep]
      · have hfalse : (decide ((scanMax p t).2 ≤ p.2)) = false := by simpa using hp
        rw [hfalse] at ihp
        have hql : q.2 ≤ p.2 := not_lt.mp hpq
        have hqfalse : (decide ((scanMax p t).2 ≤ q.2)) = false := by
          simp only [decide_eq_false_iff_not, not_le]
          exact lt_of_le_of_lt hql (not_le.mp hp)
        rw [List.find?_cons, hfalse, List.find?_cons, hqfalse]
        exact ihp

theorem foldl_no_positive_overlap (s e : ℚ) :
    ∀ (ds : List DiarSeg) (m₀ : List (String × ℚ)),
      (∀ d ∈ ds, ¬ 0 < calculate_overlap s e d.start d.stop) →
      ds.foldl (fun m diar =>
          let overlap := calculate_overlap s e diar.start diar.stop
          if 0 < overlap then insertAdd m diar.speaker overlap else m) m₀ = m₀ := by
  intro ds
  induction ds with
  | nil => intro m₀ _; rfl
  | cons d rest ih =>
    intro m₀ h
    rw [List.foldl_cons]
    dsimp only
    rw [if_neg (h d (List.mem_cons_self _ _))]
    exact ih m₀ (fun d' hd' => h d' (List.mem_cons_of_mem _ hd'))

/-- C4: whenever two or more distinct labels attain the same maximal
accumulated overlap, find_dominant_speaker returns the first label reaching
that maximum in candidate iteration order: the result is the first entry of
the accumulated overlaps dict whose value attains the maximum, and the
dict's key order is the order in which labels first achieve positive
overlap during candidate iteration. -/
theorem C4_tie_break_first_max (s e : ℚ) (ds : List DiarSeg) (a b : String) (v : ℚ)
    (hab : a ≠ b)
    (ha : (a, v) ∈ accumOverlaps s e ds)
    (hb : (b, v) ∈ accumOverlaps s e ds)
    (hmax : ∀ p ∈ accumOverlaps s e ds, p.2 ≤ v) :
    (accumOverlaps s e ds).find? (fun p => decide (v ≤ p.2)) =
        some (find_dominant_speaker s e ds, v) ∧
      keysOf (accumOverlaps s e ds) = firstOccs (posSpeakers s e ds) := by
  constructor
  · rcases hm : accumOverlaps s e ds with _ | ⟨p, rest⟩
    · rw [hm] at ha; simp at ha
    · rw [hm] at ha hmax
      have hfind := scanMax_find? rest p
      obtain ⟨hmem, hbound⟩ := scanMax_mem_le rest p
      have h1 : (scanMax p rest).2 ≤ v := hmax _ hmem
      have h2 : v ≤ (scanMax p rest).2 := by
        have := hbound (a, v) ha
        simpa using this
      have heq : (scanMax p rest).2 = v := le_antisymm h1 h2
      have hdom : find_dominant_speaker s e ds = (scanMax p rest).1 := by
        show (match pyMaxKey (accumOverlaps s e ds) with
              | none => "UNKNOWN"
              | some k => k) = (scanMax p rest).1
        rw [hm]
        rfl
      rw [hdom, ← heq]
      have hpe : ((scanMax p rest).1, (scanMax p rest).2) = scanMax p rest := Prod.mk.eta
      rw [hpe]
      exact hfind
  · have hkeys := keysOf_foldl s e ds []
    unfold accumOverlaps
    rw [hkeys]
    have : ∀ P : List String, P.filter (fun x => decide (x ∉ keysOf [])) = P := by
      intro P
      induction P with
      | nil => rfl
      | cons x P ih => simp [List.filter_cons, keysOf, ih]
    rw [this]
    rfl

/-- C5: the overlap of a candidate with the target is
max(0, min(target.end, cand.end) - max(target.start, cand.start)); overlaps
are summed per distinct label over all candidates bearing the label; and
when no candidate has positive overlap the result is UNKNOWN. -/
theorem C5_overlap_formula_sum_unknown (s e : ℚ) (ds : List DiarSeg) :
    (∀ a b c d : ℚ, calculate_overlap a b c d = max 0 (min b d - max a c)) ∧
      (∀ label, lookupVal label (accumOverlaps s e ds) = labelOverlapSum s e ds label) ∧
      ((∀ d ∈ ds, ¬ 0 < calculate_overlap s e d.start d.stop) →
        find_dominant_speaker s e ds = "UNKNOWN") := by
  refine ⟨fun a b c d => rfl, fun label => ?_, fun hnone => ?_⟩
  · have h := lookupVal_foldl s e ds [] label
    unfold accumOverlaps
    rw [h]
    simp [lookupVal]
  · have hacc : accumOverlaps s e ds = [] := foldl_no_positive_overlap s e ds [] hnone
    unfold find_dominant_speaker
    rw [hacc]
    rfl

theorem C4_tie_break_first_max_witness :
    (accumOverlaps 0 10 [⟨0, 5, "A"⟩, ⟨5, 10, "B"⟩]).find?
        (fun p => decide ((5 : ℚ) ≤ p.2)) =
        some (find_dominant_speaker 0 10 [⟨0, 5, "A"⟩, ⟨5, 10, "B"⟩], 5) ∧
      keysOf (accumOverlaps 0 10 [⟨0, 5, "A"⟩, ⟨5, 10, "B"⟩]) =
        firstOccs (posSpeakers 0 10 [⟨0, 5, "A"⟩, ⟨5, 10, "B"⟩]) :=
  C4_tie_break_first_max 0 10 [⟨0, 5, "A"⟩, ⟨5, 10, "B"⟩] "A" "B" 5
    (by decide)
    (by norm_num +decide [accumOverlaps, calculate_overlap, insertAdd])
    (by norm_num +decide [accumOverlaps, calculate_overlap, insertAdd])
    (by norm_num +decide [accumOverlaps, calculate_overlap, insertAdd])

theorem C5_overlap_formula_sum_unknown_witness :
    find_dominant_speaker 100 110 [⟨0, 5, "A"⟩] = "UNKNOWN" :=
  (C5_overlap_formula_sum_unknown 100 110 [⟨0, 5, "A"⟩]).2.2
    (by norm_num [calculate_overlap])

/-! ### C3 / C9: merge failure behavior and output invariants -/

/-- Number of input transcript segments with non-empty trimmed text (0 when
neither shape is present, since neither loop runs). -/
def transcriptNonEmptyCount (t : TranscriptDoc) : ℕ :=
  match t.transcription with
  | some segs => segs.countP (fun seg => decide (pyStrip (seg.text.getD "") ≠ ""))
  | none =>
    match t.segments with
    | some segs => segs.countP (fun seg => decide (pyStrip (seg.text.getD "") ≠ ""))
    | none => 0

theorem length_filterMap_eq_countP {α β : Type} (f : α → Option β) (l : List α) :
    (l.filterMap f).length = l.countP (fun x => (f x).isSome) := by
  induction l with
  | nil => rfl
  | cons a l ih =>
    cases hfa : f a <;> simp [List.filterMap_cons, hfa, List.countP_cons, ih]

theorem mergedOfNested_length (ds : List DiarSeg) (segs : List NestedSeg) :
    (mergedOfNested ds segs).length =
      segs.countP (fun seg => decide (pyStrip (seg.text.getD "") ≠ "")) := by
  rw [mergedOfNested, length_filterMap_eq_countP]
  apply List.countP_congr
  intro seg _
  dsimp only
  by_cases h : pyStrip (seg.text.getD "") = "" <;> simp [h]

theorem mergedOfFlat_length (ds : List DiarSeg) (segs : List FlatSeg) :
    (mergedOfFlat ds segs).length =
      segs.countP (fun seg => decide (pyStrip (seg.text.getD "") ≠ "")) := by
  rw [mergedOfFlat, length_filterMap_eq_countP]
  apply List.countP_congr
  intro seg _
  dsimp only
  by_cases h : pyStrip (seg.text.getD "") = "" <;> simp [h]

theorem mergedSegsOf_length (ds : List DiarSeg) (t : TranscriptDoc) :
    (mergedSegsOf ds t).length = transcriptNonEmptyCount t := by
  unfold mergedSegsOf transcriptNonEmptyCount
  cases t.transcription with
  | some segs => exact mergedOfNested_length ds segs
  | none =>
    cases t.segments with
    | some segs => exact mergedOfFlat_length ds segs
    | none => rfl

theorem consolidateAux_length :
    ∀ (rest : List MergedSeg) (cur : MergedSeg),
      (consolidateAux cur rest).length ≤ rest.length + 1 := by
  intro rest
  induction rest with
  | nil => intro cur; simp [consolidateAux]
  | cons seg rs ih =>
    intro cur
    unfold consolidateAux
    by_cases h : cur.speaker = seg.speaker
    · rw [if_pos h]
      exact le_trans (ih _) (by simp)
    · rw [if_neg h]
      simpa [Nat.succ_le_succ_iff] using ih seg

theorem consolidateAux_head :
    ∀ (rest : List MergedSeg) (cur : MergedSeg),
      ∃ hd tl, consolidateAux cur rest = hd :: tl ∧ hd.speaker = cur.speaker := by
  intro rest
  induction rest with
  | nil => intro cur; exact ⟨cur, [], rfl, rfl⟩
  | cons seg rs ih =>
    intro cur
    unfold consolidateAux
    by_cases h : cur.speaker = seg.speaker
    · rw [if_pos h]
      obtain ⟨hd, tl, heq, hspk⟩ := ih { cur with stop := seg.stop, text := cur.text ++ " " ++ seg.text }
      exact ⟨hd, tl, heq, hspk⟩
    · rw [if_neg h]
      exact ⟨cur, consolidateAux seg rs, rfl, rfl⟩

theorem consolidateAux_chain :
    ∀ (rest : List MergedSeg) (cur : MergedSeg),
      List.Chain' (fun x y => x.speaker ≠ y.speaker) (consolidateAux cur rest) := by
  intro rest
  induction rest with
  | nil => intro cur; simp [consolidateAux]
  | cons seg rs ih =>
    intro cur
    unfold consolidateAux
    by_cases h : cur.speaker = seg.speaker
    · rw [if_pos h]
      exact ih _
    · rw [if_neg h]
      obtain ⟨hd, tl, heq, hspk⟩ := consolidateAux_head rs seg
      rw [heq]
      apply List.chain'_cons.mpr
      refine ⟨?_, heq ▸ ih seg⟩
      rw [hspk]
      exact h

theorem consolidate_chain (segs : List MergedSeg) :
    List.Chain' (fun x y => x.speaker ≠ y.speaker) (consolidate segs) := by
  rw [consolidate_eq_aux]
  cases segs with
  | nil => simp
  | cons s rest => exact consolidateAux_chain rest s

theorem consolidate_length_le (segs : List MergedSeg) :
    (consolidate segs).length ≤ segs.length := by
  rw [consolidate_eq_aux]
  cases segs with
  | nil => simp
  | cons s rest => simpa using consolidateAux_length rest s

/-- C9: for every accepted input, the consolidated output has no two
adjacent segments with the same speaker, and its length is at most the
number of transcript segments with non-empty trimmed text. -/
theorem C9_merge_output_invariants (t : TranscriptDoc) (d : DiarDoc) (r : MergeResult)
    (h : merge_transcript t d = some r) :
    List.Chain' (fun x y => x.speaker ≠ y.speaker) r.segments ∧
      r.segments.length ≤ transcriptNonEmptyCount t := by
  unfold merge_transcript at h
  rcases hd : d.segments with _ | ds
  · rw [hd] at h; exact absurd h (by simp)
  · rw [hd] at h
    have hr : r = ⟨d.speakers.getD [], consolidate (mergedSegsOf ds t)⟩ :=
      (Option.some.inj h).symm
    rw [hr]
    refine ⟨consolidate_chain _, ?_⟩
    calc (consolidate (mergedSegsOf ds t)).length
        ≤ (mergedSegsOf ds t).length := consolidate_length_le _
      _ = transcriptNonEmptyCount t := mergedSegsOf_length ds t

theorem C9_merge_output_invariants_witness :
    List.Chain' (fun x y => x.speaker ≠ y.speaker)
        (MergeResult.segments ⟨[], []⟩) ∧
      (MergeResult.segments ⟨[], []⟩).length ≤
        transcriptNonEmptyCount ⟨none, none⟩ :=
  C9_merge_output_invariants ⟨none, none⟩ ⟨some [], some []⟩ ⟨[], []⟩ rfl

/-- C3 counterexample: a transcript document matching neither recognized
shape does not make the merge fail; it succeeds with an empty consolidated
segment list. -/
theorem C3_counterexample_no_failure :
    merge_transcript ⟨none, none⟩ ⟨some [⟨0, 1, "A"⟩], some ["A"]⟩ =
        some ⟨["A"], []⟩ ∧
      merge_transcript ⟨none, none⟩ ⟨some [⟨0, 1, "A"⟩], some ["A"]⟩ ≠ none := by
  refine ⟨rfl, ?_⟩
  simp [merge_transcript]

/-- C3 amended: the merge fails exactly when the diarization input lacks a
segment list (an unhandled lookup error, not a dedicated FormatError type);
a transcript matching neither recognized shape succeeds with an empty
consolidated list, as does a transcript with zero segments of non-empty
trimmed text. -/
theorem C3_failure_conditions (t : TranscriptDoc) (d : DiarDoc) :
    (merge_transcript t d = none ↔ d.segments = none) ∧
      (∀ ds, d.segments = some ds → t.transcription = none → t.segments = none →
        merge_transcript t d = some ⟨d.speakers.getD [], []⟩) ∧
      (∀ ds, d.segments = some ds → transcriptNonEmptyCount t = 0 →
        merge_transcript t d = some ⟨d.speakers.getD [], []⟩) := by
  refine ⟨?_, ?_, ?_⟩
  · unfold merge_transcript
    rcases hd : d.segments with _ | ds <;> simp
  · intro ds hds htr hsg
    unfold merge_transcript
    rw [hds]
    unfold mergedSegsOf
    rw [htr, hsg]
    rfl
  · intro ds hds hcount
    unfold merge_transcript
    rw [hds]
    have hlen : (mergedSegsOf ds t).length = 0 := by
      rw [mergedSegsOf_length, hcount]
    have hnil : mergedSegsOf ds t = [] := List.length_eq_zero.mp hlen
    dsimp only
    rw [hnil]
    rfl

theorem C3_failure_conditions_witness :
    merge_transcript ⟨none, none⟩ ⟨some [⟨0, 1, "A"⟩], some ["A"]⟩ =
      some ⟨(Option.some ["A"]).getD [], []⟩ :=
  (C3_failure_conditions ⟨none, none⟩ ⟨some [⟨0, 1, "A"⟩], some ["A"]⟩).2.1
    [⟨0, 1, "A"⟩] rfl rfl rfl

/-! ### clean_transcript_text

The first pass is re.sub of the pattern "(.\x7b20,\x7d?)\\1\x7b2,\x7d$" with
replacement "\\1": an end-anchored lazy group of at least 20 non-newline
characters, immediately repeated at least twice more, collapsed to a single
occurrence.  The regex engine scans start positions left to right and, at a
given start, group lengths ascending; the anchor matches at the end of the
string or just before one trailing newline. -/

/-- Position where the anchor of the pattern matches. -/
def pyDollarPos (cs : List Char) : ℕ :=
  if cs.getLast? = some '\n' then cs.length - 1 else cs.length

/-- region consists of exactly n consecutive copies of g. -/
def repBlocksN (g : List Char) : ℕ → List Char → Bool
  | 0, cs => cs.isEmpty
  | n + 1, cs => decide (cs.take g.length = g) && repBlocksN g n (cs.drop g.length)

/-- The full pattern matches the region with group length L: the region
splits into at least 3 equal blocks of length L (the lazy group plus at
least 2 further copies), and the group contains no newline. -/
def matchesAt (region : List Char) (L : ℕ) : Bool :=
  decide (region.length % L = 0) && decide (3 ≤ region.length / L) &&
    !(region.take L).contains '\n' && repBlocksN (region.take L) (region.length / L) region

/-- Leftmost match, shortest group first (lazy quantifier). -/
def findTailMatch (cs : List Char) (p : ℕ) : Option (ℕ × ℕ) :=
  (List.range (p + 1)).findSome? fun i =>
    let region := (cs.take p).drop i
    (List.range (region.length / 3 + 1)).findSome? fun L =>
      bif decide (20 ≤ L) && matchesAt region L then some (i, L) else none

/-- The re.sub pass: replace the matched span by the group alone. -/
def collapseTailRepeat (s : String) : String :=
  let cs := s.data
  let p := pyDollarPos cs
  match findTailMatch cs p with
  | some (i, L) => ⟨cs.take i ++ (cs.drop i).take L ++ cs.drop p⟩
  | none => s

theorem dropWhile_length_le {α : Type} (p : α → Bool) :
    ∀ l : List α, (l.dropWhile p).length ≤ l.length := by
  intro l
  induction l with
  | nil => simp
  | cons a t ih =>
    rw [List.dropWhile_cons]
    by_cases h : p a = true
    · rw [if_pos h]; exact le_trans ih (Nat.le_succ _)
    · rw [if_neg h]

def isSentEnd (c : Char) : Bool := c == '.' || c == '!' || c == '?'

/-- re.split on a whitespace run preceded by sentence-ending punctuation
(the lookbehind): acc holds the current piece reversed.  The first argument
is fuel (structural recursion); every step consumes at least one character
of cs and one unit of fuel, so fuel ≥ cs.length never runs out. -/
def splitSentencesAux : ℕ → List Char → List Char → List String
  | 0, _, acc => [⟨acc.reverse⟩]
  | _ + 1, [], acc => [⟨acc.reverse⟩]
  | fuel + 1, c :: rest, acc =>
    if pyIsSpace c && (match acc with | a :: _ => isSentEnd a | [] => false) then
      ⟨acc.reverse⟩ :: splitSentencesAux fuel (rest.dropWhile pyIsSpace) []
    else splitSentencesAux fuel rest (c :: acc)

def splitSentences (s : String) : List String :=
  splitSentencesAux s.data.length s.data []

/-- The repeated-sentence suppression loop of clean_transcript_text: the
state is the last appended sentence and the run counter; a sentence equal
(after strip) to the previous one is dropped once the incremented counter
reaches 2. -/
def dedupSentencesAux : List String → String → ℕ → List String
  | [], _, _ => []
  | sentence :: rest, last_sentence, repeat_count =>
    if pyStrip sentence = pyStrip last_sentence then
      if 2 ≤ repeat_count + 1 then
        dedupSentencesAux rest last_sentence (repeat_count + 1)
      else sentence :: dedupSentencesAux rest sentence (repeat_count + 1)
    else sentence :: dedupSentencesAux rest sentence 0

/-- clean_transcript_text: collapse the end-anchored repetition, then drop
consecutive repeated sentences, joining with single spaces. -/
def clean_transcript_text (text : String) : String :=
  pyJoin " " (dedupSentencesAux (splitSentences (collapseTailRepeat text)) "" 0)

/-! Declarative (spec-side) description of the sentence suppression pass,
for comparison with the loop above. -/

def trimEq (a b : String) : Bool := pyStrip a == pyStrip b

/-- Maximal runs of trim-equal consecutive sentences. -/
def runsBy (r : String → String → Bool) : List String → List (List String)
  | [] => []
  | a :: l => (a :: l.takeWhile (r a)) :: runsBy r (l.dropWhile (r a))
termination_by l => l.length
decreasing_by
  exact Nat.lt_succ_of_le (dropWhile_length_le (r a) l)

/-- Keep the first two sentences of every maximal run of trim-equal
consecutive sentences, dropping the rest. -/
def keepTwoOfRuns (ss : List String) : List String :=
  ((runsBy trimEq ss).map (fun g => g.take 2)).flatten

theorem strBeq_comm (a b : String) : (a == b) = (b == a) := by
  by_cases h : a = b
  · rw [h]
  · have h2 : ¬b = a := fun hh => h hh.symm
    simp [h, h2]

theorem dropWhile_head_false {α : Type} (p : α → Bool) :
    ∀ (l : List α) (s : α) (u : List α), l.dropWhile p = s :: u → p s = false := by
  intro l
  induction l with
  | nil => intro s u h; simp at h
  | cons a t ih =>
    intro s u h
    rw [List.dropWhile_cons] at h
    by_cases hp : p a = true
    · rw [if_pos hp] at h; exact ih s u h
    · rw [if_neg hp] at h
      obtain ⟨h1, -⟩ := List.cons.inj h
      rw [← h1]
      simpa using hp

/-- Once the counter is at least 1, the loop drops the whole remaining
trim-equal run without emitting or changing state. -/
theorem dedup_drop_run :
    ∀ (ss : List String) (last : String) (rc : ℕ), 1 ≤ rc →
      dedupSentencesAux ss last rc =
        dedupSentencesAux (ss.dropWhile (fun x => pyStrip x == pyStrip last)) last 0 := by
  intro ss
  induction ss with
  | nil => intro last rc _; rfl
  | cons s t ih =>
    intro last rc hrc
    rw [List.dropWhile_cons]
    by_cases h : pyStrip s = pyStrip last
    · have hb : (pyStrip s == pyStrip last) = true := by simpa using h
      rw [if_pos hb, dedupSentencesAux, if_pos h, if_pos (by omega : 2 ≤ rc + 1)]
      exact ih last (rc + 1) (by omega)
    · have hb : (pyStrip s == pyStrip last) = false := by simpa using h
      rw [if_neg (by simp [hb]), dedupSentencesAux, if_neg h, dedupSentencesAux, if_neg h]

theorem keepTwoOfRuns_nil : keepTwoOfRuns [] = [] := by
  simp [keepTwoOfRuns, runsBy]

theorem keepTwoOfRuns_cons (a : String) (l : List String) :
    keepTwoOfRuns (a :: l) =
      a :: (l.takeWhile (trimEq a)).take 1 ++
        keepTwoOfRuns (l.dropWhile (trimEq a)) := by
  unfold keepTwoOfRuns
  rw [runsBy]
  simp [List.take_succ_cons]

/-- Main equivalence: from any state whose last-emitted text trim-differs
from the head, the loop keeps exactly the first two sentences of each
trim-equal run. -/
theorem dedup_keepTwo_aux :
    ∀ (n : ℕ) (a : String) (l : List String) (last : String) (rc : ℕ),
      l.length ≤ n → pyStrip a ≠ pyStrip last →
      dedupSentencesAux (a :: l) last rc = keepTwoOfRuns (a :: l) := by
  intro n
  induction n with
  | zero =>
    intro a l last rc hlen hne
    have hl : l = [] := List.length_eq_zero.mp (Nat.le_zero.mp hlen)
    subst hl
    rw [dedupSentencesAux, if_neg hne, dedupSentencesAux, keepTwoOfRuns_cons]
    simp [keepTwoOfRuns_nil]
  | succ n ih =>
    intro a l last rc hlen hne
    rw [dedupSentencesAux, if_neg hne]
    cases l with
    | nil =>
      rw [dedupSentencesAux, keepTwoOfRuns_cons]
      simp [keepTwoOfRuns_nil]
    | cons b t =>
      have htlen : t.length ≤ n := by
        simpa [Nat.succ_le_succ_iff] using hlen
      rw [keepTwoOfRuns_cons]
      by_cases hba : pyStrip b = pyStrip a
      · have htb : trimEq a b = true := by
          simp only [trimEq]
          simpa using hba.symm
        rw [dedupSentencesAux, if_pos hba, if_neg (by omega : ¬ 2 ≤ 0 + 1)]
        rw [dedup_drop_run t b (0 + 1) (by omega)]
        have hpred : trimEq a = (fun x => pyStrip x == pyStrip b) := by
          funext x
          simp only [trimEq]
          rw [strBeq_comm, hba]
        have hA : dedupSentencesAux (t.dropWhile (fun x => pyStrip x == pyStrip b)) b 0 =
            keepTwoOfRuns (t.dropWhile (fun x => pyStrip x == pyStrip b)) := by
          cases ht : t.dropWhile (fun x => pyStrip x == pyStrip b) with
          | nil => rw [keepTwoOfRuns_nil]; rfl
          | cons s u =>
            have hs : (pyStrip s == pyStrip b) = false := dropWhile_head_false _ t s u ht
            have hsne : pyStrip s ≠ pyStrip b := by simpa using hs
            have hu : u.length ≤ n := by
              have h1 : (s :: u).length ≤ t.length := by
                rw [← ht]; exact dropWhile_length_le _ t
              simp only [List.length_cons] at h1
              omega
            exact ih s u b 0 hu hsne
        rw [hA]
        rw [List.takeWhile_cons, if_pos htb, List.dropWhile_cons, if_pos htb,
          List.take_succ_cons, List.take_zero, hpred]
        rfl
      · have htb : trimEq a b = false := by
          simp only [trimEq]
          simp
          intro hc
          exact hba hc.symm
        have hIH := ih b t a 0 htlen hba
        rw [dedupSentencesAux] at hIH ⊢
        rw [hIH]
        rw [List.takeWhile_cons, if_neg (by simp [htb]), List.dropWhile_cons,
          if_neg (by simp [htb])]
        rfl

/-- C6 amended: after collapsing the end-anchored repeated tail, the text is
split into sentences on sentence-ending punctuation followed by whitespace,
and within every run of consecutive sentences identical after trimming, the
first two occurrences are kept and repeats from the third onward are
dropped (provided the first sentence is not all-whitespace, since the loop
compares against an initial empty last-sentence). -/
theorem C6_clean_text_keeps_first_two (text : String)
    (h : pyStrip ((splitSentences (collapseTailRepeat text)).headD "") ≠ "") :
    clean_transcript_text text =
      pyJoin " " (keepTwoOfRuns (splitSentences (collapseTailRepeat text))) := by
  unfold clean_transcript_text
  cases hss : splitSentences (collapseTailRepeat text) with
  | nil => rw [keepTwoOfRuns_nil]; rfl
  | cons a l =>
    rw [hss] at h
    simp only [List.headD_cons] at h
    have hne : pyStrip a ≠ pyStrip "" := by
      simpa using h
    rw [dedup_keepTwo_aux l.length a l "" 0 (le_refl _) hne]

/-- C6 counterexample: for the text "Hi. Hi. Hi." (three identical
sentences), the cleaning operation keeps the first two occurrences, not
only the first as claimed. -/
theorem C6_counterexample_keeps_two :
    clean_transcript_text "Hi. Hi. Hi." = "Hi. Hi." ∧
      clean_transcript_text "Hi. Hi. Hi." ≠ "Hi." := by
  constructor <;> decide

theorem C6_clean_text_keeps_first_two_witness :
    clean_transcript_text "Hi. Hi. Hi." =
      pyJoin " " (keepTwoOfRuns (splitSentences (collapseTailRepeat "Hi. Hi. Hi."))) :=
  C6_clean_text_keeps_first_two "Hi. Hi. Hi." (by decide)

/-! ### Timestamp codec

Modelled from the spec: the module voxpipe/utils/timestamps.py providing
seconds_to_srt and seconds_to_vtt is imported by subtitles.py and
utils/__init__.py but missing from the repository snapshot.  Per spec 4.1:
decompose non-negative seconds into hours, minutes, seconds and
milliseconds (fraction rounded to millisecond resolution), format as
HH:MM:SS,mmm (SRT, comma) or HH:MM:SS.mmm (VTT, period), hours unbounded
and zero-padded to at least 2 digits.  The decode direction is likewise
modelled from the spec round-trip property. -/

def digitChar (d : ℕ) : Char := Char.ofNat (48 + d % 10)

/-- Decimal digits of n, least significant first; fuel-based structural
recursion (fuel ≥ n suffices since n / 10 < n for n ≥ 10). -/
def natDigitsAux : ℕ → ℕ → List Char
  | 0, _ => []
  | fuel + 1, n =>
    if n < 10 then [digitChar n]
    else digitChar (n % 10) :: natDigitsAux fuel (n / 10)

/-- Decimal digits of n, most significant first. -/
def natDigits (n : ℕ) : List Char := (natDigitsAux n n).reverse

/-- str(n). -/
def natStr (n : ℕ) : String := ⟨natDigits n⟩

def padLeft (w : ℕ) (ds : List Char) : List Char :=
  List.replicate (w - ds.length) '0' ++ ds

/-- The formatted timestamp for a total millisecond count. -/
def msData (totalMs : ℕ) (sep : Char) : List Char :=
  let h := totalMs / 3600000
  let m := totalMs % 3600000 / 60000
  let s := totalMs % 60000 / 1000
  let ms := totalMs % 1000
  padLeft 2 (natDigits h) ++
    (':' :: (padLeft 2 (natDigits m) ++
      (':' :: (padLeft 2 (natDigits s) ++ (sep :: padLeft 3 (natDigits ms))))))

/-- Modelled from the spec: encode for the SRT style. -/
def seconds_to_srt (t : ℚ) : String := ⟨msData (roundHalfEven (t * 1000)).toNat ','⟩

/-- Modelled from the spec: encode for the VTT style. -/
def seconds_to_vtt (t : ℚ) : String := ⟨msData (roundHalfEven (t * 1000)).toNat '.'⟩

/-- Consume a leading run of decimal digits, accumulating their value. -/
def readNat : List Char → ℕ → ℕ × List Char
  | [], acc => (acc, [])
  | c :: rest, acc =>
    if c.isDigit then readNat rest (acc * 10 + (c.toNat - 48)) else (acc, c :: rest)

/-- Expect and consume a single colon. -/
def consumeColon : List Char → Option (List Char)
  | ':' :: r => some r
  | _ => none

/-- Expect and consume the fractional separator of either style. -/
def consumeSep : List Char → Option (List Char)
  | c :: r => if c = ',' ∨ c = '.' then some r else none
  | [] => none

/-- Modelled from the spec: decode a timestamp of either style back to
seconds. -/
def decodeTimestamp (str : String) : Option ℚ :=
  let p1 := readNat str.data 0
  (consumeColon p1.2).bind fun r1 =>
    let p2 := readNat r1 0
    (consumeColon p2.2).bind fun r2 =>
      let p3 := readNat r2 0
      (consumeSep p3.2).bind fun r3 =>
        let p4 := readNat r3 0
        if p4.2.isEmpty then
          some (((p1.1 * 3600000 + p2.1 * 60000 + p3.1 * 1000 + p4.1 : ℕ) : ℚ) / 1000)
        else none

theorem digitChar_toNat (d : ℕ) : (digitChar d).toNat = 48 + d % 10 := by
  have h : d % 10 < 10 := Nat.mod_lt _ (by norm_num)
  unfold digitChar
  interval_cases h : d % 10 <;> decide

theorem digitChar_isDigit (d : ℕ) : (digitChar d).isDigit = true := by
  have h : d % 10 < 10 := Nat.mod_lt _ (by norm_num)
  unfold digitChar
  interval_cases h : d % 10 <;> decide

def valAcc (acc : ℕ) (ds : List Char) : ℕ :=
  ds.foldl (fun a c => a * 10 + (c.toNat - 48)) acc

theorem readNat_digits_append :
    ∀ (ds : List Char) (acc : ℕ) (tail : List Char),
      (∀ c ∈ ds, c.isDigit = true) →
      readNat (ds ++ tail) acc = readNat tail (valAcc acc ds) := by
  intro ds
  induction ds with
  | nil => intro acc tail _; rfl
  | cons c rest ih =>
    intro acc tail h
    have hc : c.isDigit = true := h c (List.mem_cons_self _ _)
    rw [List.cons_append, readNat, if_pos hc]
    exact ih _ tail (fun c' hc' => h c' (List.mem_cons_of_mem _ hc'))

theorem readNat_stop (c : Char) (rest : List Char) (acc : ℕ) (h : c.isDigit = false) :
    readNat (c :: rest) acc = (acc, c :: rest) := by
  rw [readNat, if_neg (by simp [h])]

theorem natDigitsAux_digits :
    ∀ (fuel n : ℕ), ∀ c ∈ natDigitsAux fuel n, c.isDigit = true := by
  intro fuel
  induction fuel with
  | zero => intro n c hc; simp [natDigitsAux] at hc
  | succ fuel ih =>
    intro n c hc
    rw [natDigitsAux] at hc
    by_cases h : n < 10
    · rw [if_pos h] at hc
      rw [List.mem_singleton] at hc
      subst hc
      exact digitChar_isDigit n
    · rw [if_neg h] at hc
      rcases List.mem_cons.mp hc with h1 | h1
      · subst h1; exact digitChar_isDigit _
      · exact ih _ c h1

theorem valAcc_append (acc : ℕ) (xs ys : List Char) :
    valAcc acc (xs ++ ys) = valAcc (valAcc acc xs) ys := by
  unfold valAcc
  rw [List.foldl_append]

theorem valAcc_natDigitsAux :
    ∀ (fuel n acc : ℕ), n ≤ fuel →
      valAcc acc (natDigitsAux fuel n).reverse =
        acc * 10 ^ (natDigitsAux fuel n).length + n := by
  intro fuel
  induction fuel with
  | zero =>
    intro n acc hn
    have : n = 0 := Nat.le_zero.mp hn
    subst this
    simp [natDigitsAux, valAcc]
  | succ fuel ih =>
    intro n acc hn
    rw [natDigitsAux]
    by_cases h : n < 10
    · rw [if_pos h]
      simp only [List.reverse_singleton, List.length_singleton, pow_one]
      unfold valAcc
      simp only [List.foldl_cons, List.foldl_nil]
      rw [digitChar_toNat]
      omega
    · rw [if_neg h]
      have hdiv : n / 10 ≤ fuel := by
        have h1 : n / 10 < n := Nat.div_lt_self (by omega) (by norm_num)
        omega
      rw [List.reverse_cons, valAcc_append]
      rw [ih (n / 10) acc hdiv]
      unfold valAcc
      simp only [List.foldl_cons, List.foldl_nil, List.length_cons, List.length_reverse]
      rw [digitChar_toNat]
      have : (natDigitsAux fuel (n / 10)).length = (natDigitsAux fuel (n / 10)).reverse.length := by
        rw [List.length_reverse]
      rw [pow_succ]
      have hmod : n % 10 % 10 = n % 10 := Nat.mod_mod_of_dvd n (dvd_refl 10)
      ring_nf
      omega

theorem natDigits_digits (n : ℕ) : ∀ c ∈ natDigits n, c.isDigit = true := by
  intro c hc
  rw [natDigits, List.mem_reverse] at hc
  exact natDigitsAux_digits n n c hc

theorem valAcc_natDigits (n : ℕ) : valAcc 0 (natDigits n) = n := by
  rw [natDigits, valAcc_natDigitsAux n n 0 (le_refl n)]
  simp

theorem padLeft_digits (w n : ℕ) : ∀ c ∈ padLeft w (natDigits n), c.isDigit = true := by
  intro c hc
  rw [padLeft, List.mem_append] at hc
  rcases hc with h | h
  · rw [List.eq_of_mem_replicate h]
    decide
  · exact natDigits_digits n c h

theorem valAcc_zeros (k : ℕ) : valAcc 0 (List.replicate k '0') = 0 := by
  induction k with
  | zero => rfl
  | succ k ih =>
    rw [List.replicate_succ]
    unfold valAcc at ih ⊢
    simpa using ih

theorem valAcc_padLeft (w n : ℕ) : valAcc 0 (padLeft w (natDigits n)) = n := by
  rw [padLeft, valAcc_append, valAcc_zeros, valAcc_natDigits]

theorem readNat_all_digits (ds : List Char) (acc : ℕ)
    (h : ∀ c ∈ ds, c.isDigit = true) : readNat ds acc = (valAcc acc ds, []) := by
  have h2 := readNat_digits_append ds acc [] h
  rw [List.append_nil] at h2
  rw [h2]
  rfl

theorem decode_msData (T : ℕ) (sep : Char) (hsep : sep = ',' ∨ sep = '.') :
    decodeTimestamp ⟨msData T sep⟩ = some ((T : ℚ) / 1000) := by
  have hsepd : sep.isDigit = false := by
    rcases hsep with h | h <;> subst h <;> decide
  have hcolon : ∀ r : List Char, consumeColon (':' :: r) = some r := fun r => rfl
  have hsome : ∀ (r : List Char) (f : List Char → Option ℚ), (some r).bind f = f r :=
    fun r f => rfl
  unfold decodeTimestamp msData
  dsimp only
  rw [readNat_digits_append _ _ _ (padLeft_digits 2 (T / 3600000)),
    readNat_stop ':' _ _ (by decide)]
  dsimp only
  rw [hcolon, hsome]
  rw [readNat_digits_append _ _ _ (padLeft_digits 2 (T % 3600000 / 60000)),
    readNat_stop ':' _ _ (by decide)]
  dsimp only
  rw [hcolon, hsome]
  rw [readNat_digits_append _ _ _ (padLeft_digits 2 (T % 60000 / 1000)),
    readNat_stop sep _ _ hsepd]
  dsimp only
  rw [show consumeSep (sep :: padLeft 3 (natDigits (T % 1000))) =
      some (padLeft 3 (natDigits (T % 1000))) from by
    simp only [consumeSep]; rw [if_pos hsep]]
  rw [hsome]
  rw [readNat_all_digits _ _ (padLeft_digits 3 (T % 1000))]
  dsimp only
  rw [if_pos (show (([] : List Char).isEmpty) = true from rfl)]
  rw [valAcc_padLeft, valAcc_padLeft, valAcc_padLeft, valAcc_padLeft]
  congr 1
  congr 1
  norm_cast
  omega

theorem roundHalfEven_nonneg (x : ℚ) (hx : 0 ≤ x) : 0 ≤ roundHalfEven x := by
  have hf : (0 : ℤ) ≤ ⌊x⌋ := Int.floor_nonneg.mpr hx
  unfold roundHalfEven
  dsimp only
  split_ifs <;> omega

/-- C7: modelled from the spec (timestamps module absent from the
snapshot).  For every non-negative t and both styles, decoding the encoded
timestamp yields t rounded to 3 decimal places; encode(0, SRT) is
"00:00:00,000" and encode(3661.5, VTT) is "01:01:01.500". -/
theorem C7_timestamp_codec_roundtrip :
    (∀ t : ℚ, 0 ≤ t →
        decodeTimestamp (seconds_to_srt t) = some (pyRound3 t) ∧
          decodeTimestamp (seconds_to_vtt t) = some (pyRound3 t)) ∧
      seconds_to_srt 0 = "00:00:00,000" ∧
      seconds_to_vtt (7323 / 2) = "01:01:01.500" := by
  have key : ∀ (t : ℚ), 0 ≤ t →
      (((roundHalfEven (t * 1000)).toNat : ℚ) / 1000) = pyRound3 t := by
    intro t ht
    have hr : 0 ≤ roundHalfEven (t * 1000) :=
      roundHalfEven_nonneg _ (mul_nonneg ht (by norm_num))
    have h1 : ((roundHalfEven (t * 1000)).toNat : ℤ) = roundHalfEven (t * 1000) :=
      Int.toNat_of_nonneg hr
    have h2 : ((roundHalfEven (t * 1000)).toNat : ℚ) = ((roundHalfEven (t * 1000) : ℤ) : ℚ) := by
      exact_mod_cast h1
    rw [pyRound3, h2]
  refine ⟨fun t ht => ⟨?_, ?_⟩, ?_, ?_⟩
  · rw [seconds_to_srt, decode_msData _ ',' (Or.inl rfl), key t ht]
  · rw [seconds_to_vtt, decode_msData _ '.' (Or.inr rfl), key t ht]
  · have h0 : (roundHalfEven ((0 : ℚ) * 1000)).toNat = 0 := by
      norm_num [roundHalfEven]
    rw [seconds_to_srt, h0]
    decide
  · have h1 : (roundHalfEven ((7323 / 2 : ℚ) * 1000)).toNat = 3661500 := by
      norm_num [roundHalfEven]
      decide
    rw [seconds_to_vtt, h1]
    decide

theorem C7_timestamp_codec_roundtrip_witness :
    decodeTimestamp (seconds_to_srt (7323 / 2)) = some (pyRound3 (7323 / 2)) ∧
      decodeTimestamp (seconds_to_vtt (7323 / 2)) = some (pyRound3 (7323 / 2)) :=
  C7_timestamp_codec_roundtrip.1 (7323 / 2) (by norm_num)

/-! ### subtitles.py: export_srt -/

theorem str_ext {a b : String} (h : a.data = b.data) : a = b := by
  cases a; cases b; cases h; rfl

theorem str_data_append (a b : String) : (a ++ b).data = a.data ++ b.data := by
  cases a; cases b; rfl

theorem str_empty_append (s : String) : "" ++ s = s := by
  apply str_ext
  rw [str_data_append]
  rfl

theorem str_append_assoc (a b c : String) : a ++ b ++ c = a ++ (b ++ c) := by
  apply str_ext
  simp [str_data_append]

/-- The loop body of export_srt, four lines per segment (index line, time
range line, text line with optional speaker tag, blank separator); i is the
1-based enumeration counter. -/
def srtLinesAux (include_speaker : Bool) : ℕ → List Seg → List String
  | _, [] => []
  | i, seg :: rest =>
    let start := seconds_to_srt (seg.start.getD 0)
    let stop := seconds_to_srt (seg.stop.getD 0)
    let text0 := pyStrip (seg.text.getD "")
    let speaker := seg.speaker.getD ""
    let text := if include_speaker && !(speaker == "") then
        "[" ++ speaker ++ "] " ++ text0
      else text0
    natStr i :: (start ++ " --> " ++ stop) :: text :: "" ::
      srtLinesAux include_speaker (i + 1) rest

/-- export_srt (pure content construction; file I/O omitted): format the
document's segments and join with newlines. -/
def export_srt (segments : List Seg) (include_speaker : Bool) : String :=
  pyJoin "\n" (srtLinesAux include_speaker 1 segments)

theorem srtLinesAux_append (incl : Bool) :
    ∀ (xs : List Seg) (i : ℕ) (ys : List Seg),
      srtLinesAux incl i (xs ++ ys) =
        srtLinesAux incl i xs ++ srtLinesAux incl (i + xs.length) ys := by
  intro xs
  induction xs with
  | nil => intro i ys; simp [srtLinesAux]
  | cons a t ih =>
    intro i ys
    rw [List.cons_append, srtLinesAux, srtLinesAux]
    rw [ih (i + 1) ys]
    simp only [List.length_cons, List.cons_append]
    have : i + 1 + t.length = i + (t.length + 1) := by omega
    rw [this]

theorem pyJoin_append (sep : String) :
    ∀ (A B : List String), A ≠ [] → B ≠ [] →
      pyJoin sep (A ++ B) = pyJoin sep A ++ sep ++ pyJoin sep B := by
  intro A
  induction A with
  | nil => intro B h _; exact absurd rfl h
  | cons x A' ih =>
    intro B _ hB
    cases A' with
    | nil =>
      cases B with
      | nil => exact absurd rfl hB
      | cons y B' => rfl
    | cons a A'' =>
      have h1 : (a :: A'') ++ B = a :: (A'' ++ B) := rfl
      rw [List.cons_append, h1]
      rw [show pyJoin sep (x :: a :: (A'' ++ B)) = x ++ sep ++ pyJoin sep (a :: (A'' ++ B))
        from rfl]
      rw [← h1, ih B (by simp) hB]
      rw [show pyJoin sep (x :: a :: A'') = x ++ sep ++ pyJoin sep (a :: A'') from rfl]
      rw [str_append_assoc (x ++ sep), str_append_assoc (x ++ sep)]

/-- C8: each segment in order emits four lines (sequential 1-based index,
SRT time range, text with the speaker tag exactly when requested and
non-empty, blank separator), joined with newlines; missing fields default
to 0/0/empty; the claimed single-segment outputs hold exactly. -/
theorem C8_export_srt_structure :
    (∀ (segs : List Seg) (s : Seg) (incl : Bool),
        export_srt (segs ++ [s]) incl =
          export_srt segs incl ++ (if segs.isEmpty then "" else "\n") ++
            pyJoin "\n"
              [natStr (segs.length + 1),
               seconds_to_srt (s.start.getD 0) ++ " --> " ++ seconds_to_srt (s.stop.getD 0),
               if incl && !(s.speaker.getD "" == "") then
                 "[" ++ s.speaker.getD "" ++ "] " ++ pyStrip (s.text.getD "")
               else pyStrip (s.text.getD ""),
               ""]) ∧
      export_srt [⟨some 1, some (5/2), some "UNKNOWN", some "hello"⟩] false =
        "1\n00:00:01,000 --> 00:00:02,500\nhello\n" ∧
      export_srt [⟨none, none, none, none⟩] false =
        "1\n00:00:00,000 --> 00:00:00,000\n\n" := by
  have e1 : seconds_to_srt 1 = "00:00:01,000" := by
    rw [seconds_to_srt,
      show (roundHalfEven ((1 : ℚ) * 1000)).toNat = 1000 by norm_num [roundHalfEven]; decide]
    decide
  have e2 : seconds_to_srt (5 / 2) = "00:00:02,500" := by
    rw [seconds_to_srt,
      show (roundHalfEven ((5 / 2 : ℚ) * 1000)).toNat = 2500 by norm_num [roundHalfEven]; decide]
    decide
  have e0 : seconds_to_srt 0 = "00:00:00,000" := by
    rw [seconds_to_srt,
      show (roundHalfEven ((0 : ℚ) * 1000)).toNat = 0 by norm_num [roundHalfEven]]
    decide
  have hone : ∀ (incl : Bool) (i : ℕ) (s : Seg),
      srtLinesAux incl i [s] =
        [natStr i,
         seconds_to_srt (s.start.getD 0) ++ " --> " ++ seconds_to_srt (s.stop.getD 0),
         if incl && !(s.speaker.getD "" == "") then
           "[" ++ s.speaker.getD "" ++ "] " ++ pyStrip (s.text.getD "")
         else pyStrip (s.text.getD ""),
         ""] := by
    intro incl i s
    rw [srtLinesAux]
    rw [show srtLinesAux incl (i + 1) ([] : List Seg) = [] from rfl]
  refine ⟨?_, ?_, ?_⟩
  · intro segs s incl
    unfold export_srt
    rw [srtLinesAux_append]
    cases segs with
    | nil =>
      rw [if_pos (show (([] : List Seg).isEmpty) = true from rfl)]
      rw [show srtLinesAux incl 1 ([] : List Seg) = [] from rfl, List.nil_append]
      rw [show pyJoin "\n" ([] : List String) = "" from rfl]
      rw [str_empty_append, str_empty_append]
      rw [hone]
      norm_num
    | cons a t =>
      have hA : srtLinesAux incl 1 (a :: t) ≠ [] := by
        rw [srtLinesAux]; simp
      have hB : srtLinesAux incl (1 + (a :: t).length) [s] ≠ [] := by
        rw [hone]; simp
      rw [pyJoin_append "\n" _ _ hA hB]
      rw [if_neg (show ¬(((a :: t) : List Seg).isEmpty = true) from by simp)]
      congr 2
      rw [hone]
      have : 1 + (a :: t).length = (a :: t).length + 1 := by omega
      rw [this]
  · unfold export_srt
    rw [hone]
    simp only [Option.getD_some, Bool.false_and, Bool.false_eq_true, if_false]
    rw [e1, e2]
    decide
  · unfold export_srt
    rw [hone]
    simp only [Option.getD_none, Bool.false_and, Bool.false_eq_true, if_false]
    rw [e0]
    decide

end Voxpipe
